import Mathlib

/-!
# Verification of the quantL backtest engine

A shallow embedding of `src/backtest/backtest_engine.py` (class
`BacktestEngine`) together with the strategy interface of
`src/strategy/base_strategy.py`, and theorems settling the specification
claims about it.

Modelling conventions:
* Dates are natural numbers (they are only compared and subtracted).
* Python floats are modelled as exact rationals (`Rat`).  Python scalar
  division raises `ZeroDivisionError` on a zero divisor; where that can
  matter (the daily-return computation) the embedding returns
  `Except String _` with error `"ZeroDivisionError"`; elsewhere the
  divisors are guarded by the code itself or irrelevant to the theorems.
* Python dicts are association lists in insertion order: an update of an
  existing key rewrites it in place, a new key is appended at the end,
  deletion removes the key.
* A pandas DataFrame of one instrument's prices is the list of its rows
  (date and close price; the engine reads only the `close` column).
* The transcendental float operations `x ** y` (used by the annualised
  return) and `sqrt` (inside the standard deviation) are abstracted as
  function parameters `pw` and `sq` of the analyzer; whether the sample
  standard deviation is `> 0` is decided on the sample variance, which for
  a genuine square root is equivalent.  pandas' `.std()` of a series of
  fewer than two elements is `NaN` (so `NaN > 0` is false); this is
  modelled by `sampleVariance` returning `none` there.
-/

namespace QuantL

/-- One row of an instrument's price DataFrame (only the `close` column is
read by the engine). -/
structure PriceRow where
  date : Nat
  close : Rat
deriving DecidableEq, Repr

/-- A trade record, as appended to `self.trades` by `_execute_buy` /
`_execute_sell`. -/
structure Trade where
  date : Nat
  symbol : String
  action : String
  quantity : Int
  price : Rat
  value : Rat
  cost : Rat
  capital : Rat
deriving DecidableEq, Repr

/-- A portfolio snapshot, as appended to `self.portfolio_values` by
`_update_portfolio_value`. -/
structure Snapshot where
  date : Nat
  cash : Rat
  position_value : Rat
  total_value : Rat
deriving DecidableEq, Repr

/-- The mutable state of `BacktestEngine` (its `self` fields).
`commission` and `slippage` are the values read from configuration at
construction time (defaults 0.0003 and 0.0001). -/
structure BacktestEngine where
  initial_capital : Rat
  current_capital : Rat
  positions : List (String × Int)
  trades : List Trade
  portfolio_values : List Snapshot
  daily_returns : List Rat
  commission : Rat
  slippage : Rat
deriving DecidableEq, Repr

/-- Embeds `BacktestEngine.__init__`: stores the initial capital (unvalidated)
and the configured cost rates; all logs start empty. -/
def initEngine (initial_capital commission slippage : Rat) : BacktestEngine :=
  { initial_capital := initial_capital
    current_capital := initial_capital
    positions := []
    trades := []
    portfolio_values := []
    daily_returns := []
    commission := commission
    slippage := slippage }

/-- Embeds `BacktestEngine.reset`: restore capital to the initial capital and
clear positions and all logs. -/
def reset (eng : BacktestEngine) : BacktestEngine :=
  { eng with
    current_capital := eng.initial_capital
    positions := []
    trades := []
    portfolio_values := []
    daily_returns := [] }

/-- The strategy interface consumed by the engine
(`BaseStrategy.generate_signals` returns a frame with a `signal` column,
modelled as (date, signal) pairs; `calculate_position_size` maps
(signal, price, capital) to a signed integer target quantity). -/
structure Strategy where
  name : String
  generateSignals : List PriceRow → List (Nat × Rat)
  calculatePositionSize : Rat → Rat → Rat → Int

/-- Dict lookup `d.get(k)` on an association list. -/
def alistLookup {α : Type} (ps : List (String × α)) (s : String) : Option α :=
  (ps.find? (fun e => decide (e.1 = s))).map (fun e => e.2)

/-- Embeds `self.positions.get(symbol, 0)`. -/
def posGet (ps : List (String × Int)) (s : String) : Int :=
  (alistLookup ps s).getD 0

/-- Dict store `d[k] = v`: rewrite the existing key in place, or append a
new key at the end. -/
def posSet (ps : List (String × Int)) (s : String) (v : Int) : List (String × Int) :=
  if ps.any (fun e => decide (e.1 = s)) then
    ps.map (fun e => if e.1 = s then (s, v) else e)
  else
    ps ++ [(s, v)]

/-- Dict deletion `del d[k]`. -/
def posDelete (ps : List (String × Int)) (s : String) : List (String × Int) :=
  ps.filter (fun e => decide (e.1 ≠ s))

/-- Embeds `BacktestEngine._execute_buy` (backtest_engine.py lines 186-207):
debit `trade_value + cost` from cash, add `quantity` to the position
(creating it at 0 first when absent), append a BUY trade record. -/
def executeBuy (eng : BacktestEngine) (symbol : String) (quantity : Int)
    (price cost : Rat) (date : Nat) : BacktestEngine :=
  let trade_value : Rat := (quantity : Rat) * price
  let newCapital := eng.current_capital - (trade_value + cost)
  { eng with
    current_capital := newCapital
    positions := posSet eng.positions symbol (posGet eng.positions symbol + quantity)
    trades := eng.trades ++
      [{ date := date, symbol := symbol, action := "BUY", quantity := quantity,
         price := price, value := trade_value, cost := cost, capital := newCapital }] }

/-- Embeds `BacktestEngine._execute_sell` (backtest_engine.py lines 209-231):
credit `trade_value - cost` to cash; if the symbol is held, subtract
`quantity` and delete the entry when it reaches exactly 0; append a SELL
trade record (always, even when no position was held). -/
def executeSell (eng : BacktestEngine) (symbol : String) (quantity : Int)
    (price cost : Rat) (date : Nat) : BacktestEngine :=
  let trade_value : Rat := (quantity : Rat) * price
  let newCapital := eng.current_capital + (trade_value - cost)
  let newPositions :=
    if (alistLookup eng.positions symbol).isSome then
      let q := posGet eng.positions symbol - quantity
      if q = 0 then posDelete eng.positions symbol
      else posSet eng.positions symbol q
    else eng.positions
  { eng with
    current_capital := newCapital
    positions := newPositions
    trades := eng.trades ++
      [{ date := date, symbol := symbol, action := "SELL", quantity := quantity,
         price := price, value := trade_value, cost := cost, capital := newCapital }] }

/-- The body of the loop of `BacktestEngine._execute_trades`
(backtest_engine.py lines 146-184) for one `(symbol, signal)` pair:
skip symbols without a price; compute the target quantity via the
strategy, the trade delta against the current position, and the cost;
a buy requires `trade_value + total_cost <= current_capital`, a sell
always executes. -/
def tradeStep (strategy : Strategy) (prices : List (String × Rat)) (date : Nat)
    (eng : BacktestEngine) (sig : String × Rat) : BacktestEngine :=
  match alistLookup prices sig.1 with
  | none => eng
  | some current_price =>
    let target_quantity := strategy.calculatePositionSize sig.2 current_price eng.current_capital
    let current_quantity := posGet eng.positions sig.1
    let trade_quantity := target_quantity - current_quantity
    if trade_quantity = 0 then eng
    else
      let trade_value : Rat := (|trade_quantity| : Int) * current_price
      let commission_cost := trade_value * eng.commission
      let slippage_cost := trade_value * eng.slippage
      let total_cost := commission_cost + slippage_cost
      if 0 < trade_quantity then
        if trade_value + total_cost ≤ eng.current_capital then
          executeBuy eng sig.1 trade_quantity current_price total_cost date
        else eng
      else
        executeSell eng sig.1 |trade_quantity| current_price total_cost date

/-- Embeds `BacktestEngine._execute_trades`: fold `tradeStep` over the signals
dict in insertion order. -/
def executeTrades (strategy : Strategy) (eng : BacktestEngine)
    (signals prices : List (String × Rat)) (date : Nat) : BacktestEngine :=
  signals.foldl (tradeStep strategy prices date) eng

/-- Embeds `date in df.index` followed by `df.loc[date, 'close']`: first row of
the frame carrying the given date, if any. -/
def dfLookup (df : List PriceRow) (date : Nat) : Option PriceRow :=
  df.find? (fun r => decide (r.date = date))

/-- Embeds `df[df.index <= date]`: the history slice handed to
`strategy.generate_signals` in `_process_date` (backtest_engine.py
line 134). -/
def histData (df : List PriceRow) (date : Nat) : List PriceRow :=
  df.filter (fun r => decide (r.date ≤ date))

/-- The `current_prices` dict built in `_process_date`
(backtest_engine.py lines 124-127): close price of every instrument whose
frame has a row at `date`, in data order. -/
def currentPrices (data : List (String × List PriceRow)) (date : Nat) :
    List (String × Rat) :=
  data.foldl
    (fun acc sd =>
      match dfLookup sd.2 date with
      | some r => acc ++ [(sd.1, r.close)]
      | none => acc)
    []

/-- The `signals` dict built in `_process_date` (backtest_engine.py lines
129-138): for every instrument with a row at `date` whose history slice
has strictly more than 20 rows, run `generate_signals` on the slice and
keep the signal at `date` when present. -/
def computeSignals (strategy : Strategy) (data : List (String × List PriceRow))
    (date : Nat) : List (String × Rat) :=
  data.foldl
    (fun acc sd =>
      if (dfLookup sd.2 date).isSome then
        let hist := histData sd.2 date
        if 20 < hist.length then
          let signal_df := strategy.generateSignals hist
          match signal_df.find? (fun p => decide (p.1 = date)) with
          | some p => acc ++ [(sd.1, p.2)]
          | none => acc
        else acc
      else acc)
    []

/-- The mark-to-market loop of `_update_portfolio_value`
(backtest_engine.py lines 236-239): sum of quantity × price over held
instruments whose symbol has a price; holdings without a price contribute
nothing (and are kept). -/
def positionsValue (positions : List (String × Int)) (prices : List (String × Rat)) : Rat :=
  positions.foldl
    (fun acc sq =>
      match alistLookup prices sq.1 with
      | some p => acc + (sq.2 : Rat) * p
      | none => acc)
    0

/-- Embeds `BacktestEngine._update_portfolio_value` (backtest_engine.py lines
233-257): append the snapshot {date, cash, position value, total value};
then append the daily return — 0 on the first date, otherwise
`(total_value - prev_value) / prev_value` where `prev_value` is the
previous snapshot's total value; a zero `prev_value` raises Python's
`ZeroDivisionError`, modelled as `Except.error`. -/
def updatePortfolioValue (eng : BacktestEngine) (prices : List (String × Rat))
    (date : Nat) : Except String BacktestEngine :=
  let position_value := positionsValue eng.positions prices
  let total_value := eng.current_capital + position_value
  let snap : Snapshot :=
    { date := date, cash := eng.current_capital,
      position_value := position_value, total_value := total_value }
  match eng.portfolio_values.getLast? with
  | some prevSnap =>
    if prevSnap.total_value = 0 then .error "ZeroDivisionError"
    else
      .ok { eng with
        portfolio_values := eng.portfolio_values ++ [snap]
        daily_returns := eng.daily_returns ++
          [(total_value - prevSnap.total_value) / prevSnap.total_value] }
  | none =>
    .ok { eng with
      portfolio_values := eng.portfolio_values ++ [snap]
      daily_returns := eng.daily_returns ++ [0] }

/-- Embeds `BacktestEngine._process_date` (backtest_engine.py lines 115-144):
collect current prices, compute signals (on histories sliced to
`index <= date`), execute trades, then update the portfolio value. -/
def processDate (strategy : Strategy) (data : List (String × List PriceRow))
    (date : Nat) (eng : BacktestEngine) : Except String BacktestEngine :=
  let prices := currentPrices data date
  let signals := computeSignals strategy data date
  let eng' := executeTrades strategy eng signals prices date
  updatePortfolioValue eng' prices date

/-- Embeds `BacktestEngine._get_common_dates` (backtest_engine.py lines 91-113):
fold over the data dict, skipping empty frames, intersecting the sets of
in-range dates; `None` (no non-empty frame seen) and the empty set both
yield the empty list, otherwise the sorted date list.  A Python `set` of
dates is modelled as a duplicate-free list with membership-based
intersection. -/
def inRangeDates (startD endD : Nat) (df : List PriceRow) : List Nat :=
  ((df.filter (fun r => decide (startD ≤ r.date ∧ r.date ≤ endD))).map
    (fun r => r.date)).dedup

/-- The fold step of `_get_common_dates`. -/
def commonDatesStep (startD endD : Nat) (acc : Option (List Nat))
    (sd : String × List PriceRow) : Option (List Nat) :=
  if sd.2 = [] then acc
  else
    match acc with
    | none => some (inRangeDates startD endD sd.2)
    | some c => some (c.filter (fun d => decide (d ∈ inRangeDates startD endD sd.2)))

/-- Embeds `BacktestEngine._get_common_dates` itself (`sorted(list(s))` is
ascending insertion sort of the set's elements). -/
def getCommonDates (data : List (String × List PriceRow)) (startD endD : Nat) :
    List Nat :=
  match data.foldl (commonDatesStep startD endD) none with
  | none => []
  | some c => if c = [] then [] else List.insertionSort (· ≤ ·) c

/-- The per-date loop of `run_backtest` (backtest_engine.py lines 81-82),
propagating the `ZeroDivisionError` of the accountant (which aborts the
Python run). -/
def runLoop (strategy : Strategy) (data : List (String × List PriceRow)) :
    List Nat → BacktestEngine → Except String BacktestEngine
  | [], eng => .ok eng
  | d :: ds, eng =>
    match processDate strategy data d eng with
    | .error e => .error e
    | .ok eng' => runLoop strategy data ds eng'

/-- Embeds `BacktestEngine.run_backtest` (backtest_engine.py lines 46-89) up to
the final `_calculate_results` call: reset the engine, align the dates,
iterate the per-date loop.  Returns the final engine state together with
the aligned dates (from which `_calculate_results` builds the result
dict). -/
def runBacktest (strategy : Strategy) (data : List (String × List PriceRow))
    (startD endD : Nat) (eng : BacktestEngine) :
    Except String (BacktestEngine × List Nat) :=
  let eng0 := reset eng
  let all_dates := getCommonDates data startD endD
  match runLoop strategy data all_dates eng0 with
  | .error e => .error e
  | .ok engF => .ok (engF, all_dates)

/-- Embeds `pd.Series.mean`: sum divided by length (only consumed on series of
length at least 2, where the sample standard deviation is positive). -/
def listMean (xs : List Rat) : Rat :=
  xs.sum / (xs.length : Rat)

/-- The sample variance underlying `pd.Series.std` (ddof = 1): `none`
models the `NaN` that pandas returns on fewer than two data points
(`NaN > 0` is false in the Sharpe-ratio guard), otherwise
Σ (x − mean)² / (n − 1).  The source's guard `std > 0` is equivalent to
`variance > 0` since std is its square root. -/
def sampleVariance (xs : List Rat) : Option Rat :=
  if xs.length < 2 then none
  else
    some ((xs.map (fun x => (x - listMean xs) ^ 2)).sum / ((xs.length : Rat) - 1))

/-- Embeds `pd.Series.cumprod` applied to `1 + daily_returns`: running products. -/
def cumprodAux (acc : Rat) : List Rat → List Rat
  | [] => []
  | x :: xs => (acc * x) :: cumprodAux (acc * x) xs

/-- Embeds `(1 + daily_returns_series).cumprod()`. -/
def cumulativeReturns (rs : List Rat) : List Rat :=
  cumprodAux 1 (rs.map (fun r => 1 + r))

/-- Embeds `Series.expanding().max()`: running maxima. -/
def runningMaxAux (acc : Rat) : List Rat → List Rat
  | [] => []
  | x :: xs => (max acc x) :: runningMaxAux (max acc x) xs

/-- Running maximum of a series (first element seeds the maximum). -/
def runningMax : List Rat → List Rat
  | [] => []
  | x :: xs => x :: runningMaxAux x xs

/-- Embeds `(cumulative_returns - running_max) / running_max`, elementwise. -/
def drawdownSeries (rs : List Rat) : List Rat :=
  List.zipWith (fun c m => (c - m) / m) (cumulativeReturns rs) (runningMax (cumulativeReturns rs))

/-- The result dict of `_calculate_results` (pandas objects flattened to
the lists backing them; `sharpe` is the `sharpe_ratio` entry;
`max_drawdown` is `none` when pandas would yield `NaN`, i.e. the minimum
of an empty drawdown series). -/
structure Results where
  strategy_name : String
  initial_capital : Rat
  final_capital : Rat
  total_return : Rat
  annual_return : Rat
  sharpe : Rat
  max_drawdown : Option Rat
  total_trades : Nat
  winning_trades : Nat
  win_rate : Rat
  portfolio_history : List Snapshot
  trades : List Trade
  daily_returns : List Rat

/-- Embeds `BacktestEngine._calculate_results` (backtest_engine.py lines
259-306).  `pw` abstracts float `x ** y` and `sq` abstracts the square
root inside `pd.Series.std` and `np.sqrt(252)`.  An empty snapshot list
returns `{}` in Python, modelled as `none`; the source would raise
`IndexError` on an empty `dates` with non-empty snapshots (unreachable
from `run_backtest`, where one snapshot is appended per date), also
modelled as `none`.  Python would raise `ZeroDivisionError` in
`total_return` when `initial_capital = 0`; here rational division totalises
that case, and no theorem below depends on it. -/
def calculateResults (pw : Rat → Rat → Rat) (sq : Rat → Rat)
    (strategy : Strategy) (eng : BacktestEngine) (dates : List Nat) : Option Results :=
  match eng.portfolio_values.getLast?, dates.head?, dates.getLast? with
  | some lastSnap, some d0, some dn =>
    let total_return := (lastSnap.total_value - eng.initial_capital) / eng.initial_capital
    let days : Int := (dn : Int) - (d0 : Int)
    let annual_return := if 0 < days then pw (1 + total_return) (365 / (days : Rat)) - 1 else 0
    let rs := eng.daily_returns.drop 1
    let sharpe :=
      match sampleVariance rs with
      | none => 0
      | some v => if 0 < v then listMean rs / sq v * sq 252 else 0
    let max_drawdown := (drawdownSeries rs).min?
    let total_trades := eng.trades.length
    let winning_trades := (eng.trades.filter (fun t => decide (t.action = "SELL"))).length
    some
      { strategy_name := strategy.name
        initial_capital := eng.initial_capital
        final_capital := lastSnap.total_value
        total_return := total_return
        annual_return := annual_return
        sharpe := sharpe
        max_drawdown := max_drawdown
        total_trades := total_trades
        winning_trades := winning_trades
        win_rate := if 0 < total_trades then (winning_trades : Rat) / (total_trades : Rat) else 0
        portfolio_history := eng.portfolio_values
        trades := eng.trades
        daily_returns := eng.daily_returns }
  | _, _, _ => none

/-- A strategy that never signals and always targets a flat position;
used to instantiate theorems on concrete inputs. -/
def trivialStrategy : Strategy :=
  { name := "trivial", generateSignals := fun _ => [], calculatePositionSize := fun _ _ _ => 0 }

/-! ## Helper lemmas -/

theorem mem_posSet {ps : List (String × Int)} {s : String} {v : Int} {e : String × Int}
    (h : e ∈ posSet ps s v) : e = (s, v) ∨ e.1 ≠ s := by
  unfold posSet at h
  by_cases hany : ps.any (fun e => decide (e.1 = s)) = true
  · rw [if_pos hany] at h
    rcases List.mem_map.mp h with ⟨a, _, ha⟩
    by_cases has : a.1 = s
    · left; rw [if_pos has] at ha; exact ha.symm
    · right; rw [if_neg has] at ha; rw [← ha]; exact has
  · rw [if_neg hany] at h
    rcases List.mem_append.mp h with h1 | h1
    · right
      intro hes
      exact hany (List.any_eq_true.mpr ⟨e, h1, by simpa using hes⟩)
    · left; simpa using h1

theorem mem_posDelete {ps : List (String × Int)} {s : String} {e : String × Int}
    (h : e ∈ posDelete ps s) : e ∈ ps ∧ e.1 ≠ s := by
  unfold posDelete at h
  have := List.mem_filter.mp h
  exact ⟨this.1, by simpa using this.2⟩

theorem tradeStep_preserves_logs (strategy : Strategy) (prices : List (String × Rat))
    (date : Nat) (eng : BacktestEngine) (sig : String × Rat) :
    (tradeStep strategy prices date eng sig).portfolio_values = eng.portfolio_values ∧
    (tradeStep strategy prices date eng sig).daily_returns = eng.daily_returns := by
  unfold tradeStep
  cases alistLookup prices sig.1 with
  | none => exact ⟨rfl, rfl⟩
  | some p =>
    simp only
    split
    · exact ⟨rfl, rfl⟩
    · split
      · split
        · exact ⟨rfl, rfl⟩
        · exact ⟨rfl, rfl⟩
      · exact ⟨rfl, rfl⟩

theorem executeTrades_preserves_logs (strategy : Strategy) (signals prices : List (String × Rat))
    (date : Nat) (eng : BacktestEngine) :
    (executeTrades strategy eng signals prices date).portfolio_values = eng.portfolio_values ∧
    (executeTrades strategy eng signals prices date).daily_returns = eng.daily_returns := by
  unfold executeTrades
  induction signals generalizing eng with
  | nil => exact ⟨rfl, rfl⟩
  | cons sig rest ih =>
    rw [List.foldl_cons]
    rcases ih (tradeStep strategy prices date eng sig) with ⟨h1, h2⟩
    rcases tradeStep_preserves_logs strategy prices date eng sig with ⟨h3, h4⟩
    exact ⟨h1.trans h3, h2.trans h4⟩

/-- The snapshot that `_update_portfolio_value` appends. -/
def mkSnapshot (eng : BacktestEngine) (prices : List (String × Rat)) (date : Nat) : Snapshot :=
  { date := date
    cash := eng.current_capital
    position_value := positionsValue eng.positions prices
    total_value := eng.current_capital + positionsValue eng.positions prices }

theorem updatePortfolioValue_ok {eng : BacktestEngine} {prices : List (String × Rat)}
    {date : Nat} {eng' : BacktestEngine}
    (h : updatePortfolioValue eng prices date = .ok eng') :
    ∃ r : Rat,
      eng' = { eng with
        portfolio_values := eng.portfolio_values ++ [mkSnapshot eng prices date]
        daily_returns := eng.daily_returns ++ [r] } ∧
      ((eng.portfolio_values.getLast? = none ∧ r = 0) ∨
        (∃ prev, eng.portfolio_values.getLast? = some prev ∧ prev.total_value ≠ 0 ∧
          r = ((mkSnapshot eng prices date).total_value - prev.total_value) / prev.total_value)) := by
  unfold updatePortfolioValue at h
  cases hlast : eng.portfolio_values.getLast? with
  | none =>
    rw [hlast] at h
    simp only at h
    refine ⟨0, ?_, Or.inl ⟨rfl, rfl⟩⟩
    cases h
    rfl
  | some prev =>
    rw [hlast] at h
    simp only at h
    by_cases hz : prev.total_value = 0
    · rw [if_pos hz] at h; cases h
    · rw [if_neg hz] at h
      refine ⟨_, ?_, Or.inr ⟨prev, rfl, hz, rfl⟩⟩
      cases h
      rfl

/-! ## C1: the accounting invariant of the snapshots -/

/-- C1: every snapshot appended by `_update_portfolio_value` satisfies
`cash + position_value == total_value`, with `position_value` the sum
over held instruments with a known price of quantity times that date's
close price (`positionsValue`; instruments without a price contribute 0
and the positions mapping is untouched); consequently every snapshot of
a completed run satisfies `total_value = cash + position_value`. -/
theorem snapshot_accounting_invariant :
    (∀ (eng : BacktestEngine) (prices : List (String × Rat)) (date : Nat)
        (eng' : BacktestEngine),
        updatePortfolioValue eng prices date = .ok eng' →
        eng'.positions = eng.positions ∧
        eng'.portfolio_values = eng.portfolio_values ++
          [{ date := date, cash := eng.current_capital,
             position_value := positionsValue eng.positions prices,
             total_value := eng.current_capital + positionsValue eng.positions prices }]) ∧
    (∀ (strategy : Strategy) (data : List (String × List PriceRow)) (dates : List Nat)
        (eng engF : BacktestEngine),
        runLoop strategy data dates eng = .ok engF →
        (∀ s ∈ eng.portfolio_values, s.total_value = s.cash + s.position_value) →
        ∀ s ∈ engF.portfolio_values, s.total_value = s.cash + s.position_value) := by
  constructor
  · intro eng prices date eng' h
    rcases updatePortfolioValue_ok h with ⟨r, heq, _⟩
    subst heq
    exact ⟨rfl, rfl⟩
  · intro strategy data dates
    induction dates with
    | nil =>
      intro eng engF h hinv
      unfold runLoop at h
      cases h
      exact hinv
    | cons d ds ih =>
      intro eng engF h hinv
      unfold runLoop at h
      cases hpd : processDate strategy data d eng with
      | error e => rw [hpd] at h; cases h
      | ok eng1 =>
        rw [hpd] at h
        refine ih eng1 engF h ?_
        unfold processDate at hpd
        rcases updatePortfolioValue_ok hpd with ⟨r, heq, _⟩
        subst heq
        intro s hs
        simp only [List.mem_append, List.mem_singleton] at hs
        rcases hs with hs | hs
        · rw [(executeTrades_preserves_logs strategy
            (computeSignals strategy data d) (currentPrices data d) d eng).1] at hs
          exact hinv s hs
        · subst hs; rfl

/-- Concrete engine state reached by one `_update_portfolio_value` call,
for the C1 witness. -/
def engC1w : BacktestEngine :=
  { initial_capital := 100, current_capital := 100, positions := [], trades := []
    portfolio_values := [{ date := 1, cash := 100, position_value := 0, total_value := 100 }]
    daily_returns := [0], commission := 0, slippage := 0 }

/-- Witness for C1 at a concrete input. -/
theorem snapshot_accounting_invariant_witness :
    updatePortfolioValue (initEngine 100 0 0) [("A", 10)] 1 = .ok engC1w ∧
    engC1w.portfolio_values =
      [] ++ [{ date := 1, cash := 100,
               position_value := positionsValue [] [("A", 10)],
               total_value := 100 + positionsValue [] [("A", 10)] }] ∧
    ({ date := 1, cash := 100, position_value := 0, total_value := 100 } : Snapshot).total_value =
      ({ date := 1, cash := 100, position_value := 0, total_value := 100 } : Snapshot).cash +
      ({ date := 1, cash := 100, position_value := 0, total_value := 100 } : Snapshot).position_value := by
  have hok : updatePortfolioValue (initEngine 100 0 0) [("A", 10)] 1 = .ok engC1w := by
    simp [updatePortfolioValue, initEngine, engC1w, positionsValue]
  refine ⟨hok, (snapshot_accounting_invariant.1 _ _ _ _ hok).2, ?_⟩
  refine snapshot_accounting_invariant.2 trivialStrategy [] [] engC1w engC1w rfl ?_
    { date := 1, cash := 100, position_value := 0, total_value := 100 } (by decide)
  intro s hs
  unfold engC1w at hs
  simp only [List.mem_singleton] at hs
  subst hs
  norm_num

/-! ## C3: buys execute exactly when capital suffices -/

/-- C3: for a positive trade delta at price `p`, with
`trade_value = trade_quantity × p` and
`cost = trade_value × commission + trade_value × slippage`, the buy step
executes (as `_execute_buy`, appending one BUY record) if and only if
`trade_value + cost ≤ current_capital`; otherwise the engine state —
cash, positions and trade log — is returned unchanged (the skip is a
value, not an exception). -/
theorem buy_executes_iff_capital_sufficient
    (strategy : Strategy) (prices : List (String × Rat)) (date : Nat)
    (eng : BacktestEngine) (sym : String) (signal price : Rat) (tq : Int)
    (hp : alistLookup prices sym = some price)
    (htq : tq = strategy.calculatePositionSize signal price eng.current_capital
      - posGet eng.positions sym)
    (hpos : 0 < tq) :
    ((tq : Rat) * price + ((tq : Rat) * price * eng.commission +
        (tq : Rat) * price * eng.slippage) ≤ eng.current_capital →
      tradeStep strategy prices date eng (sym, signal) =
        executeBuy eng sym tq price
          ((tq : Rat) * price * eng.commission + (tq : Rat) * price * eng.slippage) date ∧
      (tradeStep strategy prices date eng (sym, signal)).trades.length =
        eng.trades.length + 1) ∧
    (eng.current_capital < (tq : Rat) * price + ((tq : Rat) * price * eng.commission +
        (tq : Rat) * price * eng.slippage) →
      tradeStep strategy prices date eng (sym, signal) = eng) := by
  have habs : |tq| = tq := abs_of_pos hpos
  have hne : ¬ tq = 0 := by omega
  have hstep : tradeStep strategy prices date eng (sym, signal) =
      (if (tq : Rat) * price + ((tq : Rat) * price * eng.commission +
          (tq : Rat) * price * eng.slippage) ≤ eng.current_capital then
        executeBuy eng sym tq price
          ((tq : Rat) * price * eng.commission + (tq : Rat) * price * eng.slippage) date
      else eng) := by
    unfold tradeStep
    rw [hp]
    simp only [← htq, if_neg hne, if_pos hpos, habs]
  constructor
  · intro hle
    rw [hstep, if_pos hle]
    refine ⟨rfl, ?_⟩
    unfold executeBuy
    simp
  · intro hgt
    rw [hstep, if_neg (not_le.mpr hgt)]

/-- Witness for C3: a buy of 2 shares at price 10 with zero cost rates
executes when capital is 100, and is skipped unchanged when capital is 5. -/
theorem buy_executes_iff_capital_sufficient_witness :
    (tradeStep (Strategy.mk "b" (fun _ => []) (fun _ _ _ => 2)) [("A", 10)] 3
        (initEngine 100 0 0) ("A", 1) =
      executeBuy (initEngine 100 0 0) "A" 2 10
        ((2 : Rat) * 10 * (initEngine 100 0 0).commission +
          (2 : Rat) * 10 * (initEngine 100 0 0).slippage) 3) ∧
    (tradeStep (Strategy.mk "b" (fun _ => []) (fun _ _ _ => 2)) [("A", 10)] 3
        (initEngine 5 0 0) ("A", 1) = initEngine 5 0 0) := by
  constructor
  · refine (buy_executes_iff_capital_sufficient
      (Strategy.mk "b" (fun _ => []) (fun _ _ _ => 2)) [("A", 10)] 3
      (initEngine 100 0 0) "A" 1 10 2
      (by simp [alistLookup])
      (by simp [posGet, alistLookup, initEngine])
      (by norm_num)
      |>.1 ?_).1
    simp [initEngine]
    norm_num
  · refine buy_executes_iff_capital_sufficient
      (Strategy.mk "b" (fun _ => []) (fun _ _ _ => 2)) [("A", 10)] 3
      (initEngine 5 0 0) "A" 1 10 2
      (by simp [alistLookup])
      (by simp [posGet, alistLookup, initEngine])
      (by norm_num)
      |>.2 ?_
    simp [initEngine]
    norm_num

/-! ## C4: deletion of zero-quantity positions -/

/-- An engine holding a short position of -5 in "A" (reachable because
`SignalStrategy.calculate_position_size` returns a negative target for a
negative signal, and `_execute_sell` lets a position go negative). -/
def engC4 : BacktestEngine :=
  { initial_capital := 1000, current_capital := 1000, positions := [("A", -5)], trades := []
    portfolio_values := [], daily_returns := [], commission := 0, slippage := 0 }

/-- Counterexample to C4 as stated: a buy that brings a position of -5
to exactly 0 (target 0, so `trade_quantity = 5 > 0`, funds sufficient)
leaves the entry `("A", 0)` in the positions mapping — `_execute_buy`
never deletes entries; only `_execute_sell` does. -/
theorem zero_position_persists_after_buy :
    (tradeStep trivialStrategy [("A", 10)] 7 engC4 ("A", 1)).positions = [("A", 0)] ∧
    ("A", 0) ∈ (tradeStep trivialStrategy [("A", 10)] 7 engC4 ("A", 1)).positions ∧
    (executeBuy engC4 "A" 5 10 0 7).positions = [("A", 0)] := by
  have h1 : (tradeStep trivialStrategy [("A", 10)] 7 engC4 ("A", 1)).positions = [("A", 0)] := by
    unfold tradeStep trivialStrategy engC4 executeBuy posGet posSet alistLookup
    norm_num
  refine ⟨h1, by rw [h1]; exact List.mem_singleton.mpr rfl, ?_⟩
  unfold executeBuy engC4 posGet posSet alistLookup
  norm_num

/-- C4 amended: after `_execute_sell`, the traded instrument never has a
zero-quantity entry (a position brought to exactly 0 by a sell is
deleted); the corresponding statement for `_execute_buy` is false — a buy
reaching exactly 0 from a negative position keeps the entry. -/
theorem sell_leaves_no_zero_position (eng : BacktestEngine) (sym : String)
    (quantity : Int) (price cost : Rat) (date : Nat) :
    ∀ e ∈ (executeSell eng sym quantity price cost date).positions, e.1 = sym → e.2 ≠ 0 := by
  intro e he hsym
  unfold executeSell at he
  simp only at he
  by_cases hsome : (alistLookup eng.positions sym).isSome
  · rw [if_pos hsome] at he
    by_cases hq : posGet eng.positions sym - quantity = 0
    · rw [if_pos hq] at he
      exact absurd hsym (mem_posDelete he).2
    · rw [if_neg hq] at he
      rcases mem_posSet he with h | h
      · rw [h]; exact hq
      · exact absurd hsym h
  · rw [if_neg hsome] at he
    rcases Option.not_isSome_iff_eq_none.mp hsome with hnone
    unfold alistLookup at hnone
    rcases Option.map_eq_none.mp hnone with hfind
    have := List.find?_eq_none.mp hfind e he
    simp at this
    exact absurd hsym this

/-- Witness for C4's amended theorem: selling 2 out of 5 held shares
leaves the entry at 3, and the theorem yields `3 ≠ 0`. -/
theorem sell_leaves_no_zero_position_witness :
    (executeSell
        { initial_capital := 1000, current_capital := 1000, positions := [("A", 5)],
          trades := [], portfolio_values := [], daily_returns := [],
          commission := 0, slippage := 0 } "A" 2 10 0 7).positions = [("A", 3)] ∧
    (("A", 3) : String × Int).2 ≠ 0 := by
  have h1 : (executeSell
      { initial_capital := 1000, current_capital := 1000, positions := [("A", 5)],
        trades := [], portfolio_values := [], daily_returns := [],
        commission := 0, slippage := 0 } "A" 2 10 0 7).positions = [("A", 3)] := by
    unfold executeSell posGet posDelete posSet alistLookup
    norm_num
  refine ⟨h1, ?_⟩
  exact sell_leaves_no_zero_position _ "A" 2 10 0 7 ("A", 3) (by rw [h1]; exact List.mem_singleton.mpr rfl) rfl

/-! ## C10: selling an instrument that is not held -/

/-- C10: `_execute_sell` on an instrument absent from the positions
mapping leaves the mapping completely unchanged (no short entry is
created), yet still credits `quantity × price − cost` to cash and
appends one SELL record. -/
theorem sell_absent_instrument (eng : BacktestEngine) (sym : String)
    (quantity : Int) (price cost : Rat) (date : Nat)
    (h : alistLookup eng.positions sym = none) :
    executeSell eng sym quantity price cost date =
      { eng with
        current_capital := eng.current_capital + ((quantity : Rat) * price - cost)
        trades := eng.trades ++
          [{ date := date, symbol := sym, action := "SELL", quantity := quantity,
             price := price, value := (quantity : Rat) * price, cost := cost,
             capital := eng.current_capital + ((quantity : Rat) * price - cost) }] } := by
  unfold executeSell
  rw [h]
  rfl

/-- Witness for C10: selling 3 shares of unheld "A" at price 10 with
cost 1 from a fresh engine with capital 100 leaves positions empty,
credits 29, and logs one SELL. -/
theorem sell_absent_instrument_witness :
    executeSell (initEngine 100 0 0) "A" 3 10 1 7 =
      { initial_capital := 100, current_capital := 129, positions := [],
        trades := [{ date := 7, symbol := "A", action := "SELL", quantity := 3,
                     price := 10, value := 30, cost := 1, capital := 129 }],
        portfolio_values := [], daily_returns := [], commission := 0, slippage := 0 } := by
  rw [sell_absent_instrument (initEngine 100 0 0) "A" 3 10 1 7 (by simp [alistLookup, initEngine])]
  unfold initEngine
  norm_num

/-! ## C8: a zero previous total value halts the run -/

/-- C8: when the previous snapshot's total value is 0, the daily-return
division raises (Python `ZeroDivisionError`), modelled as `Except.error`;
and an erroring `_process_date` aborts the per-date loop of
`run_backtest`, so the run halts instead of producing an infinite or NaN
return.  (Scalars are modelled as exact rationals with Python's
scalar-division semantics.) -/
theorem zero_previous_value_halts :
    (∀ (eng : BacktestEngine) (prices : List (String × Rat)) (date : Nat) (prev : Snapshot),
        eng.portfolio_values.getLast? = some prev → prev.total_value = 0 →
        updatePortfolioValue eng prices date = .error "ZeroDivisionError") ∧
    (∀ (strategy : Strategy) (data : List (String × List PriceRow)) (d : Nat)
        (ds : List Nat) (eng : BacktestEngine) (msg : String),
        processDate strategy data d eng = .error msg →
        runLoop strategy data (d :: ds) eng = .error msg) := by
  constructor
  · intro eng prices date prev hlast hz
    unfold updatePortfolioValue
    rw [hlast]
    simp only
    rw [if_pos hz]
  · intro strategy data d ds eng msg h
    unfold runLoop
    rw [h]

/-- An engine whose only snapshot has total value 0 (reachable with
zero initial capital, which the engine never validates). -/
def engC8 : BacktestEngine :=
  { initial_capital := 0, current_capital := 0, positions := [], trades := []
    portfolio_values := [{ date := 1, cash := 0, position_value := 0, total_value := 0 }]
    daily_returns := [0], commission := 0, slippage := 0 }

/-- Witness for C8 at a concrete state. -/
theorem zero_previous_value_halts_witness :
    updatePortfolioValue engC8 [] 2 = .error "ZeroDivisionError" ∧
    runLoop trivialStrategy [] [2] engC8 = .error "ZeroDivisionError" := by
  have h1 : updatePortfolioValue engC8 [] 2 = .error "ZeroDivisionError" :=
    zero_previous_value_halts.1 engC8 [] 2 _ rfl rfl
  refine ⟨h1, ?_⟩
  refine zero_previous_value_halts.2 trivialStrategy [] 2 [] engC8 "ZeroDivisionError" ?_
  unfold processDate
  exact h1

/-! ## C2: the strategy never sees data beyond the current date -/

/-- C2: the history slice `df[df.index <= date]` handed to
`generate_signals` contains only rows dated at most the current date;
consequently the signals computed on a date depend only on the
strategy's behaviour on such past-and-current histories: two strategies
agreeing on all date-bounded histories produce identical signal dicts. -/
theorem signals_use_only_past_data :
    (∀ (df : List PriceRow) (date : Nat), ∀ r ∈ histData df date, r.date ≤ date) ∧
    (∀ (s1 s2 : Strategy) (data : List (String × List PriceRow)) (date : Nat),
        (∀ hist : List PriceRow, (∀ r ∈ hist, r.date ≤ date) →
          s1.generateSignals hist = s2.generateSignals hist) →
        computeSignals s1 data date = computeSignals s2 data date) := by
  have hpast : ∀ (df : List PriceRow) (date : Nat), ∀ r ∈ histData df date, r.date ≤ date := by
    intro df date r hr
    unfold histData at hr
    have := List.mem_filter.mp hr
    simpa using this.2
  refine ⟨hpast, ?_⟩
  intro s1 s2 data date hagree
  unfold computeSignals
  refine List.foldl_ext _ _ _ ?_
  intro acc sd _
  simp only [hagree (histData sd.2 date) (hpast sd.2 date)]

/-- A strategy that signals exactly when its input contains a row dated
after 2 — on lookahead-free slices for date 2 it behaves like
`trivialStrategy`. -/
def futureStrategy : Strategy :=
  { name := "future"
    generateSignals := fun hist =>
      if hist.any (fun r => decide (2 < r.date)) then [(2, 1)] else []
    calculatePositionSize := fun _ _ _ => 0 }

/-- Witness for C2: the slice of a frame with rows at dates 1 and 3 taken
at date 2 is just the date-1 row, whose date the theorem bounds by 2; and
`futureStrategy` is indistinguishable from `trivialStrategy` inside
`_process_date` at date 2, even on data containing a date-3 row. -/
theorem signals_use_only_past_data_witness :
    histData [⟨1, 10⟩, ⟨3, 9⟩] 2 = [⟨1, 10⟩] ∧
    (1 : Nat) ≤ 2 ∧
    computeSignals trivialStrategy [("A", [⟨1, 10⟩, ⟨3, 9⟩])] 2 =
      computeSignals futureStrategy [("A", [⟨1, 10⟩, ⟨3, 9⟩])] 2 := by
  have h1 : histData [⟨1, 10⟩, ⟨3, 9⟩] 2 = [⟨1, 10⟩] := by
    unfold histData
    simp
  refine ⟨h1, ?_, ?_⟩
  · exact signals_use_only_past_data.1 [⟨1, 10⟩, ⟨3, 9⟩] 2 ⟨1, 10⟩
      (by rw [h1]; exact List.mem_singleton.mpr rfl)
  · refine signals_use_only_past_data.2 trivialStrategy futureStrategy _ 2 ?_
    intro hist hb
    unfold trivialStrategy futureStrategy
    simp only
    rw [if_neg ?_]
    simp only [List.any_eq_true, not_exists]
    intro r
    intro hcontra
    rcases hcontra with ⟨hr, hd⟩
    have := hb r hr
    simp at hd
    omega

/-! ## C6: the date aligner -/

theorem commonDates_foldl_some (startD endD : Nat) (data : List (String × List PriceRow))
    (c : List Nat) (hc : c.Nodup) :
    ∃ s, data.foldl (commonDatesStep startD endD) (some c) = some s ∧ s.Nodup ∧
      ∀ d, d ∈ s ↔ d ∈ c ∧ ∀ p ∈ data, p.2 ≠ [] → d ∈ inRangeDates startD endD p.2 := by
  induction data generalizing c with
  | nil =>
    refine ⟨c, rfl, hc, ?_⟩
    intro d
    simp
  | cons sd rest ih =>
    rw [List.foldl_cons]
    by_cases hsd : sd.2 = []
    · have hstep : commonDatesStep startD endD (some c) sd = some c := by
        unfold commonDatesStep
        rw [if_pos hsd]
      rw [hstep]
      rcases ih c hc with ⟨s, heq, hsn, hiff⟩
      refine ⟨s, heq, hsn, ?_⟩
      intro d
      rw [hiff d]
      constructor
      · rintro ⟨hcm, hall⟩
        refine ⟨hcm, ?_⟩
        intro p hp hpne
        rcases List.mem_cons.mp hp with hp | hp
        · subst hp; exact absurd hsd hpne
        · exact hall p hp hpne
      · rintro ⟨hcm, hall⟩
        exact ⟨hcm, fun p hp hpne => hall p (List.mem_cons_of_mem sd hp) hpne⟩
    · have hstep : commonDatesStep startD endD (some c) sd =
          some (c.filter (fun d => decide (d ∈ inRangeDates startD endD sd.2))) := by
        unfold commonDatesStep
        rw [if_neg hsd]
      rw [hstep]
      rcases ih (c.filter (fun d => decide (d ∈ inRangeDates startD endD sd.2)))
        (hc.filter _) with ⟨s, heq, hsn, hiff⟩
      refine ⟨s, heq, hsn, ?_⟩
      intro d
      rw [hiff d, List.mem_filter, decide_eq_true_eq]
      constructor
      · rintro ⟨⟨hcm, hsd2⟩, hall⟩
        refine ⟨hcm, ?_⟩
        intro p hp hpne
        rcases List.mem_cons.mp hp with hp | hp
        · subst hp; exact hsd2
        · exact hall p hp hpne
      · rintro ⟨hcm, hall⟩
        exact ⟨⟨hcm, hall sd (List.mem_cons_self sd rest) hsd⟩,
          fun p hp hpne => hall p (List.mem_cons_of_mem sd hp) hpne⟩

theorem commonDates_foldl_none (startD endD : Nat) (data : List (String × List PriceRow)) :
    (data.foldl (commonDatesStep startD endD) none = none ∧ ∀ p ∈ data, p.2 = []) ∨
    (∃ s, data.foldl (commonDatesStep startD endD) none = some s ∧ s.Nodup ∧
      (∃ p ∈ data, p.2 ≠ []) ∧
      ∀ d, d ∈ s ↔ ∀ p ∈ data, p.2 ≠ [] → d ∈ inRangeDates startD endD p.2) := by
  induction data with
  | nil => exact Or.inl ⟨rfl, by simp⟩
  | cons sd rest ih =>
    rw [List.foldl_cons]
    by_cases hsd : sd.2 = []
    · have hstep : commonDatesStep startD endD none sd = none := by
        unfold commonDatesStep
        rw [if_pos hsd]
      rw [hstep]
      rcases ih with ⟨heq, hall⟩ | ⟨s, heq, hsn, hex, hiff⟩
      · refine Or.inl ⟨heq, ?_⟩
        intro p hp
        rcases List.mem_cons.mp hp with hp | hp
        · subst hp; exact hsd
        · exact hall p hp
      · refine Or.inr ⟨s, heq, hsn, ?_, ?_⟩
        · rcases hex with ⟨p, hp, hpne⟩
          exact ⟨p, List.mem_cons_of_mem sd hp, hpne⟩
        · intro d
          rw [hiff d]
          constructor
          · intro hall p hp hpne
            rcases List.mem_cons.mp hp with hp | hp
            · subst hp; exact absurd hsd hpne
            · exact hall p hp hpne
          · intro hall p hp hpne
            exact hall p (List.mem_cons_of_mem sd hp) hpne
    · have hstep : commonDatesStep startD endD none sd =
          some (inRangeDates startD endD sd.2) := by
        unfold commonDatesStep
        rw [if_neg hsd]
      rw [hstep]
      rcases commonDates_foldl_some startD endD rest (inRangeDates startD endD sd.2)
        (List.nodup_dedup _) with ⟨s, heq, hsn, hiff⟩
      refine Or.inr ⟨s, heq, hsn, ⟨sd, List.mem_cons_self sd rest, hsd⟩, ?_⟩
      intro d
      rw [hiff d]
      constructor
      · rintro ⟨hc, hall⟩ p hp hpne
        rcases List.mem_cons.mp hp with hp | hp
        · subst hp; exact hc
        · exact hall p hp hpne
      · intro hall
        exact ⟨hall sd (List.mem_cons_self sd rest) hsd,
          fun p hp hpne => hall p (List.mem_cons_of_mem sd hp) hpne⟩

theorem getCommonDates_mem_iff (data : List (String × List PriceRow)) (startD endD d : Nat) :
    d ∈ getCommonDates data startD endD ↔
      ((∃ p ∈ data, p.2 ≠ []) ∧
        ∀ p ∈ data, p.2 ≠ [] → d ∈ inRangeDates startD endD p.2) := by
  unfold getCommonDates
  rcases commonDates_foldl_none startD endD data with ⟨heq, hall⟩ | ⟨s, heq, _, hex, hiff⟩
  · rw [heq]
    simp only [List.not_mem_nil, false_iff, not_and]
    rintro ⟨p, hp, hpne⟩
    exact absurd (hall p hp) hpne
  · rw [heq]
    show d ∈ (if s = [] then ([] : List Nat) else List.insertionSort (· ≤ ·) s) ↔ _
    by_cases hs : s = []
    · rw [if_pos hs]
      simp only [List.not_mem_nil, false_iff, not_and]
      intro _
      intro hall
      have : d ∈ s := (hiff d).mpr hall
      rw [hs] at this
      exact absurd this (List.not_mem_nil d)
    · rw [if_neg hs, (List.perm_insertionSort _ s).mem_iff]
      rw [hiff d]
      constructor
      · intro h; exact ⟨hex, h⟩
      · rintro ⟨_, h⟩; exact h

/-- C6: `_get_common_dates` returns exactly the ascending sorted
intersection of the in-range date sets of the non-empty frames: an empty
input mapping yields `[]`; a date is in the result iff some frame is
non-empty and the date lies in every non-empty frame's in-range set
(empty frames are skipped); the result is strictly ascending; and a
non-empty frame with no in-range data forces the empty result. -/
theorem common_dates_spec :
    (∀ startD endD, getCommonDates [] startD endD = []) ∧
    (∀ (data : List (String × List PriceRow)) (startD endD d : Nat),
        d ∈ getCommonDates data startD endD ↔
          ((∃ p ∈ data, p.2 ≠ []) ∧
            ∀ p ∈ data, p.2 ≠ [] → d ∈ inRangeDates startD endD p.2)) ∧
    (∀ (data : List (String × List PriceRow)) (startD endD : Nat),
        List.Sorted (· < ·) (getCommonDates data startD endD)) ∧
    (∀ (data : List (String × List PriceRow)) (startD endD : Nat) (p : String × List PriceRow),
        p ∈ data → p.2 ≠ [] → inRangeDates startD endD p.2 = [] →
        getCommonDates data startD endD = []) := by
  have hmem := getCommonDates_mem_iff
  have hsorted : ∀ (data : List (String × List PriceRow)) (startD endD : Nat),
      List.Sorted (· < ·) (getCommonDates data startD endD) := by
    intro data startD endD
    unfold getCommonDates
    rcases commonDates_foldl_none startD endD data with ⟨heq, _⟩ | ⟨s, heq, hsn, _, _⟩
    · rw [heq]; exact List.sorted_nil
    · rw [heq]
      show List.Sorted (· < ·) (if s = [] then ([] : List Nat) else List.insertionSort (· ≤ ·) s)
      by_cases hs : s = []
      · rw [if_pos hs]; exact List.sorted_nil
      · rw [if_neg hs]
        exact (List.sorted_insertionSort _ s).lt_of_le
          ((List.perm_insertionSort _ s).nodup_iff.mpr hsn)
  refine ⟨fun startD endD => rfl, hmem, hsorted, ?_⟩
  intro data startD endD p hp hpne hempty
  refine List.eq_nil_iff_forall_not_mem.mpr ?_
  intro d hd
  have := ((hmem data startD endD d).mp hd).2 p hp hpne
  rw [hempty] at this
  exact absurd this (List.not_mem_nil d)

/-- Witness for C6 at concrete inputs: the empty mapping yields `[]`;
date 5 (common to both frames) is in the aligned dates of two
overlapping frames; the result is sorted; and a frame with no data in
range forces `[]`. -/
theorem common_dates_spec_witness :
    getCommonDates [] 1 2 = [] ∧
    5 ∈ getCommonDates [("A", [⟨5, 10⟩]), ("B", [⟨5, 3⟩, ⟨6, 4⟩])] 1 9 ∧
    List.Sorted (· < ·) (getCommonDates [("A", [⟨5, 10⟩]), ("B", [⟨5, 3⟩, ⟨6, 4⟩])] 1 9) ∧
    getCommonDates [("A", [⟨5, 10⟩]), ("B", [⟨1, 1⟩])] 6 9 = [] := by
  refine ⟨common_dates_spec.1 1 2, ?_, common_dates_spec.2.2.1 _ 1 9, ?_⟩
  · refine (common_dates_spec.2.1 _ 1 9 5).mpr ⟨⟨("A", [⟨5, 10⟩]), by simp⟩, ?_⟩
    intro p hp _
    rcases List.mem_cons.mp hp with hp | hp
    · subst hp; decide
    · rcases List.mem_cons.mp hp with hp | hp
      · subst hp; decide
      · exact absurd hp (List.not_mem_nil p)
  · refine common_dates_spec.2.2.2 _ 6 9 ("B", [⟨1, 1⟩]) (by simp) (by simp) ?_
    decide

/-! ## C5: daily returns and one snapshot per aligned date -/

/-- Bookkeeping invariant tying the daily-return list to the snapshot
list: equal lengths, first return 0, and each later return is the
relative change of consecutive snapshot total values. -/
def returnsInv (eng : BacktestEngine) : Prop :=
  eng.daily_returns.length = eng.portfolio_values.length ∧
  (∀ x : Rat, eng.daily_returns[0]? = some x → x = 0) ∧
  (∀ (j : Nat) (prev cur : Snapshot) (x : Rat),
    eng.portfolio_values[j]? = some prev →
    eng.portfolio_values[j + 1]? = some cur →
    eng.daily_returns[j + 1]? = some x →
    x = (cur.total_value - prev.total_value) / prev.total_value)

theorem getElem?_concat_self {α : Type} (l : List α) (a : α) :
    (l ++ [a])[l.length]? = some a := by
  rw [List.getElem?_append_right (le_refl _)]
  simp

theorem returnsInv_update {eng : BacktestEngine} {prices : List (String × Rat)}
    {date : Nat} {eng' : BacktestEngine}
    (h : updatePortfolioValue eng prices date = .ok eng') (hinv : returnsInv eng) :
    returnsInv eng' := by
  rcases updatePortfolioValue_ok h with ⟨r, heq, hcase⟩
  rcases hinv with ⟨hlen, hhead, hstepinv⟩
  subst heq
  refine ⟨by simp [hlen], ?_, ?_⟩
  · intro x hx
    simp only at hx
    by_cases hnil : eng.daily_returns.length = 0
    · have hdrnil : eng.daily_returns = [] := List.eq_nil_of_length_eq_zero hnil
      have hpvnil : eng.portfolio_values = [] :=
        List.eq_nil_of_length_eq_zero (hlen ▸ hnil)
      have hr0 : r = 0 := by
        rcases hcase with ⟨_, hr⟩ | ⟨prev, hprev, _, _⟩
        · exact hr
        · rw [hpvnil] at hprev; cases hprev
      rw [hdrnil, List.nil_append] at hx
      simp at hx
      rw [← hx]
      exact hr0
    · have h0 : 0 < eng.daily_returns.length := by omega
      rw [List.getElem?_append_left h0] at hx
      exact hhead x hx
  · intro j prev cur x hprev hcur hx
    simp only at hprev hcur hx
    by_cases hj1 : j + 1 < eng.daily_returns.length
    · have hj2 : j + 1 < eng.portfolio_values.length := hlen ▸ hj1
      have hj3 : j < eng.portfolio_values.length := by omega
      rw [List.getElem?_append_left hj1] at hx
      rw [List.getElem?_append_left hj2] at hcur
      rw [List.getElem?_append_left hj3] at hprev
      exact hstepinv j prev cur x hprev hcur hx
    · have hxlen : j + 1 < eng.daily_returns.length + 1 := by
        by_contra hc
        have : (eng.daily_returns ++ [r])[j + 1]? = none := by
          rw [List.getElem?_eq_none]
          simp
          omega
        rw [this] at hx
        cases hx
      have hjlen : j + 1 = eng.daily_returns.length := by omega
      have hjpv : j + 1 = eng.portfolio_values.length := hlen ▸ hjlen
      have hj3 : j < eng.portfolio_values.length := by omega
      rcases hcase with ⟨hnone, _⟩ | ⟨prevL, hprevL, _, hr⟩
      · rw [List.getLast?_eq_getElem? _, List.getElem?_eq_getElem
          (show eng.portfolio_values.length - 1 < eng.portfolio_values.length by omega)]
          at hnone
        cases hnone
      · have hxr : x = r := by
          rw [hjlen, getElem?_concat_self] at hx
          exact (Option.some_inj.mp hx).symm
        have hcurs : cur = mkSnapshot eng prices date := by
          rw [hjpv, getElem?_concat_self] at hcur
          exact (Option.some_inj.mp hcur).symm
        have hprevs : prev = prevL := by
          rw [List.getElem?_append_left hj3] at hprev
          rw [List.getLast?_eq_getElem? _] at hprevL
          have hidx : eng.portfolio_values.length - 1 = j := by omega
          rw [hidx] at hprevL
          rw [hprev] at hprevL
          exact Option.some_inj.mp hprevL
        rw [hxr, hr, hcurs, hprevs]

theorem returnsInv_processDate {strategy : Strategy} {data : List (String × List PriceRow)}
    {date : Nat} {eng eng' : BacktestEngine}
    (h : processDate strategy data date eng = .ok eng') (hinv : returnsInv eng) :
    returnsInv eng' := by
  unfold processDate at h
  refine returnsInv_update h ?_
  rcases executeTrades_preserves_logs strategy (computeSignals strategy data date)
    (currentPrices data date) date eng with ⟨h1, h2⟩
  unfold returnsInv
  rw [h1, h2]
  exact hinv

theorem returnsInv_runLoop {strategy : Strategy} {data : List (String × List PriceRow)} :
    ∀ {dates : List Nat} {eng engF : BacktestEngine},
    runLoop strategy data dates eng = .ok engF → returnsInv eng → returnsInv engF := by
  intro dates
  induction dates with
  | nil =>
    intro eng engF h hinv
    unfold runLoop at h
    cases h
    exact hinv
  | cons d ds ih =>
    intro eng engF h hinv
    unfold runLoop at h
    cases hpd : processDate strategy data d eng with
    | error e => rw [hpd] at h; cases h
    | ok eng1 =>
      rw [hpd] at h
      exact ih h (returnsInv_processDate hpd hinv)

theorem runLoop_snapshot_count {strategy : Strategy} {data : List (String × List PriceRow)} :
    ∀ {dates : List Nat} {eng engF : BacktestEngine},
    runLoop strategy data dates eng = .ok engF →
    engF.portfolio_values.length = eng.portfolio_values.length + dates.length := by
  intro dates
  induction dates with
  | nil =>
    intro eng engF h
    unfold runLoop at h
    cases h
    simp
  | cons d ds ih =>
    intro eng engF h
    unfold runLoop at h
    cases hpd : processDate strategy data d eng with
    | error e => rw [hpd] at h; cases h
    | ok eng1 =>
      rw [hpd] at h
      have hcount : eng1.portfolio_values.length = eng.portfolio_values.length + 1 := by
        unfold processDate at hpd
        rcases updatePortfolioValue_ok hpd with ⟨r, heq, _⟩
        subst heq
        rcases executeTrades_preserves_logs strategy (computeSignals strategy data d)
          (currentPrices data d) d eng with ⟨h1, _⟩
        simp [h1]
      rw [ih h, hcount, List.length_cons]
      omega

/-- C5: for every successful run with a non-empty aligned date sequence,
exactly one snapshot is appended per aligned date
(`len(snapshots) = len(daily_returns) = len(aligned_dates)`), the first
recorded daily return is exactly 0, and every later daily return equals
`(total_value − previous_total_value) / previous_total_value` over
consecutive snapshots. -/
theorem run_returns_and_snapshot_count (strategy : Strategy)
    (data : List (String × List PriceRow)) (startD endD : Nat)
    (eng engF : BacktestEngine) (dates : List Nat)
    (h : runBacktest strategy data startD endD eng = .ok (engF, dates))
    (hne : dates ≠ []) :
    engF.portfolio_values.length = dates.length ∧
    engF.daily_returns.length = dates.length ∧
    engF.daily_returns.head? = some 0 ∧
    (∀ (j : Nat) (prev cur : Snapshot) (x : Rat),
      engF.portfolio_values[j]? = some prev →
      engF.portfolio_values[j + 1]? = some cur →
      engF.daily_returns[j + 1]? = some x →
      x = (cur.total_value - prev.total_value) / prev.total_value) := by
  simp only [runBacktest] at h
  cases hrl : runLoop strategy data (getCommonDates data startD endD) (reset eng) with
  | error e => rw [hrl] at h; cases h
  | ok engF' =>
    rw [hrl] at h
    simp only at h
    have hinj := Except.ok.inj h
    have hfeq : engF' = engF := congrArg Prod.fst hinj
    have hdeq : getCommonDates data startD endD = dates := congrArg Prod.snd hinj
    rw [hfeq] at hrl
    have hinv0 : returnsInv (reset eng) := by
      refine ⟨rfl, ?_, ?_⟩
      · intro x hx; simp [reset] at hx
      · intro j prev cur x hprev _ _; simp [reset] at hprev
    have hinv : returnsInv engF := returnsInv_runLoop hrl hinv0
    have hcount : engF.portfolio_values.length = dates.length := by
      have := runLoop_snapshot_count hrl
      rw [hdeq] at this
      simpa [reset] using this
    rcases hinv with ⟨hlen, hhead, hstep⟩
    have hdr : engF.daily_returns.length = dates.length := by rw [hlen, hcount]
    refine ⟨hcount, hdr, ?_, hstep⟩
    have hpos : 0 < engF.daily_returns.length := by
      rw [hdr]
      exact List.length_pos.mpr hne
    have hx0 : engF.daily_returns[0]? = some (engF.daily_returns.get ⟨0, hpos⟩) := by
      simp [List.getElem?_eq_getElem hpos]
    rw [List.head?_eq_getElem?, hx0]
    rw [hhead (engF.daily_returns.get ⟨0, hpos⟩) hx0]

/-- The final engine state of the two-date witness run for C5. -/
def engC5w : BacktestEngine :=
  { initial_capital := 100, current_capital := 100, positions := [], trades := []
    portfolio_values := [{ date := 1, cash := 100, position_value := 0, total_value := 100 },
                         { date := 2, cash := 100, position_value := 0, total_value := 100 }]
    daily_returns := [0, 0], commission := 0, slippage := 0 }

/-- Witness for C5: a two-date run with a signalless strategy produces
two snapshots and daily returns `[0, 0]`, the second being
`(100 − 100) / 100` by the theorem. -/
theorem run_returns_and_snapshot_count_witness :
    runBacktest trivialStrategy [("A", [⟨1, 10⟩, ⟨2, 12⟩])] 1 2 (initEngine 100 0 0) =
      .ok (engC5w, [1, 2]) ∧
    engC5w.portfolio_values.length = 2 ∧
    engC5w.daily_returns.head? = some 0 ∧
    (0 : Rat) = ((100 : Rat) - 100) / 100 := by
  have hdates : getCommonDates [("A", [⟨1, 10⟩, ⟨2, 12⟩])] 1 2 = [1, 2] := by decide
  have hp1 : processDate trivialStrategy [("A", [⟨1, 10⟩, ⟨2, 12⟩])] 1
      (reset (initEngine 100 0 0)) =
      .ok { initial_capital := 100, current_capital := 100, positions := [], trades := []
            portfolio_values := [{ date := 1, cash := 100, position_value := 0, total_value := 100 }]
            daily_returns := [0], commission := 0, slippage := 0 } := by
    unfold processDate currentPrices computeSignals executeTrades updatePortfolioValue
      positionsValue dfLookup alistLookup histData reset initEngine trivialStrategy
    norm_num
  have hp2 : processDate trivialStrategy [("A", [⟨1, 10⟩, ⟨2, 12⟩])] 2
      { initial_capital := 100, current_capital := 100, positions := [], trades := []
        portfolio_values := [{ date := 1, cash := 100, position_value := 0, total_value := 100 }]
        daily_returns := [0], commission := 0, slippage := 0 } = .ok engC5w := by
    unfold processDate currentPrices computeSignals executeTrades updatePortfolioValue
      positionsValue dfLookup alistLookup histData engC5w trivialStrategy
    norm_num
  have hrun : runBacktest trivialStrategy [("A", [⟨1, 10⟩, ⟨2, 12⟩])] 1 2 (initEngine 100 0 0) =
      .ok (engC5w, [1, 2]) := by
    simp only [runBacktest, hdates]
    unfold runLoop
    rw [hp1]
    unfold runLoop
    rw [hp2]
    rfl
  have hmain := run_returns_and_snapshot_count trivialStrategy [("A", [⟨1, 10⟩, ⟨2, 12⟩])]
    1 2 (initEngine 100 0 0) engC5w [1, 2] hrun (by simp)
  refine ⟨hrun, hmain.1, hmain.2.2.1, ?_⟩
  exact hmain.2.2.2 0
    { date := 1, cash := 100, position_value := 0, total_value := 100 }
    { date := 2, cash := 100, position_value := 0, total_value := 100 }
    0 (by decide) (by decide) (by decide)

/-! ## C7: degenerate metrics fall back to 0 -/

/-- C7: in the result dict, `annual_return` is 0 when the calendar span
`dates[-1] - dates[0]` is ≤ 0, the Sharpe ratio is 0 when the standard
deviation (equivalently the sample variance) of `daily_returns[1:]` is 0,
`win_rate` is 0 when the trade log is empty, and otherwise `win_rate` is
the count of SELL trades divided by the total trade count. -/
theorem degenerate_metrics (pw : Rat → Rat → Rat) (sq : Rat → Rat) (strategy : Strategy)
    (eng : BacktestEngine) (dates : List Nat) (res : Results)
    (h : calculateResults pw sq strategy eng dates = some res) :
    (∀ d0 dn : Nat, dates.head? = some d0 → dates.getLast? = some dn →
      (dn : Int) - (d0 : Int) ≤ 0 → res.annual_return = 0) ∧
    (sampleVariance (eng.daily_returns.drop 1) = some 0 → res.sharpe = 0) ∧
    (eng.trades = [] → res.win_rate = 0) ∧
    (eng.trades ≠ [] →
      res.win_rate = ((eng.trades.filter (fun t => decide (t.action = "SELL"))).length : Rat) /
        (eng.trades.length : Rat)) := by
  unfold calculateResults at h
  cases hpv : eng.portfolio_values.getLast? with
  | none => rw [hpv] at h; cases h
  | some lastSnap =>
    rw [hpv] at h
    cases hd0 : dates.head? with
    | none => rw [hd0] at h; cases h
    | some d0 =>
      rw [hd0] at h
      cases hdn : dates.getLast? with
      | none => rw [hdn] at h; cases h
      | some dn =>
        rw [hdn] at h
        simp only at h
        have hres := Option.some.inj h
        refine ⟨?_, ?_, ?_, ?_⟩
        · intro d0' dn' hd0' hdn' hle
          have hd0e : d0' = d0 := (Option.some.inj hd0').symm
          have hdne : dn' = dn := (Option.some.inj hdn').symm
          rw [hd0e, hdne] at hle
          rw [← hres]
          simp only
          rw [if_neg (by omega)]
        · intro hvar
          rw [← hres]
          simp only
          rw [hvar]
          simp only
          rw [if_neg (lt_irrefl 0)]
        · intro htr
          rw [← hres]
          simp only
          rw [if_neg (by simp [htr])]
        · intro htr
          rw [← hres]
          simp only
          rw [if_pos (by simpa using List.length_pos.mpr htr)]

/-- A degenerate engine state: one snapshot on one date, zero-variance
later returns, no trades. -/
def engC7a : BacktestEngine :=
  { initial_capital := 5, current_capital := 5, positions := [], trades := []
    portfolio_values := [{ date := 4, cash := 5, position_value := 0, total_value := 5 }]
    daily_returns := [0, 1, 1], commission := 0, slippage := 0 }

/-- Variant of `engC7a` with one SELL trade in the log. -/
def engC7b : BacktestEngine :=
  { engC7a with
    trades := [{ date := 4, symbol := "A", action := "SELL", quantity := 1, price := 10,
                 value := 10, cost := 0, capital := 15 }] }

/-- Witness for C7 at concrete inputs: a single-date run with
zero-variance returns and no trades has annual return 0, Sharpe 0 and
win rate 0; with one SELL trade in the log the win rate is 1/1 = 1. -/
theorem degenerate_metrics_witness :
    ((calculateResults (fun _ _ => 0) (fun _ => 0) trivialStrategy engC7a [4]).map
      (fun r => (r.annual_return, r.sharpe, r.win_rate))) = some ((0 : Rat), (0 : Rat), (0 : Rat)) ∧
    ((calculateResults (fun _ _ => 0) (fun _ => 0) trivialStrategy engC7b [4]).map
      (fun r => r.win_rate)) = some (1 : Rat) := by
  constructor
  · obtain ⟨res, hres⟩ : ∃ res,
        calculateResults (fun _ _ => 0) (fun _ => 0) trivialStrategy engC7a [4] = some res :=
      ⟨_, rfl⟩
    have hmain := degenerate_metrics (fun _ _ => 0) (fun _ => 0) trivialStrategy
      engC7a [4] res hres
    have h1 : res.annual_return = 0 := hmain.1 4 4 rfl rfl (by norm_num)
    have h2 : res.sharpe = 0 := by
      refine hmain.2.1 ?_
      unfold engC7a sampleVariance listMean
      norm_num
    have h3 : res.win_rate = 0 := hmain.2.2.1 (by unfold engC7a; rfl)
    rw [hres]
    show some (res.annual_return, res.sharpe, res.win_rate) = some ((0 : Rat), (0 : Rat), (0 : Rat))
    rw [h1, h2, h3]
  · obtain ⟨res, hres⟩ : ∃ res,
        calculateResults (fun _ _ => 0) (fun _ => 0) trivialStrategy engC7b [4] = some res :=
      ⟨_, rfl⟩
    have hmain := degenerate_metrics (fun _ _ => 0) (fun _ => 0) trivialStrategy
      engC7b [4] res hres
    have h4 : res.win_rate = ((engC7b.trades.filter
        (fun t => decide (t.action = "SELL"))).length : Rat) / (engC7b.trades.length : Rat) := by
      refine hmain.2.2.2 ?_
      unfold engC7b engC7a
      simp
    rw [hres]
    show some res.win_rate = some (1 : Rat)
    rw [h4]
    unfold engC7b engC7a
    norm_num

/-! ## C9: input validation -/

theorem inRangeDates_empty_of_reversed (startD endD : Nat) (df : List PriceRow)
    (h : endD < startD) : inRangeDates startD endD df = [] := by
  unfold inRangeDates
  have : df.filter (fun r => decide (startD ≤ r.date ∧ r.date ≤ endD)) = [] := by
    refine List.filter_eq_nil_iff.mpr ?_
    intro r _
    simp only [decide_eq_true_eq, not_and]
    intro h1 h2
    omega
  rw [this]
  rfl

/-- C9 amended: the engine performs no input validation and reports no
input errors.  A start date after the end date — and likewise an empty
data mapping — yields an empty aligned date sequence, so the run returns
successfully with a reset engine and zero snapshots (no partial run, but
no error either); and construction stores any initial capital, including
non-positive values, unchecked. -/
theorem no_input_validation (strategy : Strategy) (data : List (String × List PriceRow))
    (eng : BacktestEngine) (startD endD : Nat) :
    (endD < startD → runBacktest strategy data startD endD eng = .ok (reset eng, [])) ∧
    (data = [] → runBacktest strategy data startD endD eng = .ok (reset eng, [])) ∧
    (∀ ic c s : Rat, (initEngine ic c s).initial_capital = ic ∧
      (initEngine ic c s).current_capital = ic) := by
  refine ⟨?_, ?_, fun ic c s => ⟨rfl, rfl⟩⟩
  · intro hlt
    have hcd : getCommonDates data startD endD = [] := by
      refine List.eq_nil_iff_forall_not_mem.mpr ?_
      intro d hd
      rcases (getCommonDates_mem_iff data startD endD d).mp hd with ⟨⟨p, hp, hpne⟩, hall⟩
      have := hall p hp hpne
      rw [inRangeDates_empty_of_reversed startD endD p.2 hlt] at this
      exact absurd this (List.not_mem_nil d)
    simp only [runBacktest, hcd]
    rfl
  · intro hdata
    subst hdata
    simp only [runBacktest, show getCommonDates [] startD endD = [] from rfl]
    rfl

/-- Counterexample to C9 as stated: a run constructed with non-positive
initial capital 0 is not rejected — it runs to completion over one
aligned date, appending a snapshot, and returns `.ok`, reporting no
input error to the caller. -/
theorem no_input_validation_counterexample :
    runBacktest trivialStrategy [("A", [⟨1, 10⟩])] 1 1 (initEngine 0 0 0) =
      .ok ({ initial_capital := 0, current_capital := 0, positions := [], trades := [],
             portfolio_values := [{ date := 1, cash := 0, position_value := 0, total_value := 0 }],
             daily_returns := [0], commission := 0, slippage := 0 }, [1]) := by
  have hdates : getCommonDates [("A", [⟨1, 10⟩])] 1 1 = [1] := by decide
  have hp1 : processDate trivialStrategy [("A", [⟨1, 10⟩])] 1 (reset (initEngine 0 0 0)) =
      .ok { initial_capital := 0, current_capital := 0, positions := [], trades := []
            portfolio_values := [{ date := 1, cash := 0, position_value := 0, total_value := 0 }]
            daily_returns := [0], commission := 0, slippage := 0 } := by
    unfold processDate currentPrices computeSignals executeTrades updatePortfolioValue
      positionsValue dfLookup alistLookup histData reset initEngine trivialStrategy
    norm_num
  simp only [runBacktest, hdates]
  unfold runLoop
  rw [hp1]
  rfl

/-- Witness for C9's amended theorem: a reversed range (start 5, end 2)
and an empty mapping both produce a successful empty run, and
construction stores capital 0 unvalidated. -/
theorem no_input_validation_witness :
    runBacktest trivialStrategy [("A", [⟨1, 10⟩])] 5 2 (initEngine 100 0 0) =
      .ok (reset (initEngine 100 0 0), []) ∧
    runBacktest trivialStrategy [] 1 2 (initEngine 100 0 0) =
      .ok (reset (initEngine 100 0 0), []) ∧
    (initEngine 0 0 0).initial_capital = 0 ∧ (initEngine 0 0 0).current_capital = 0 := by
  refine ⟨?_, ?_, ?_⟩
  · exact (no_input_validation trivialStrategy [("A", [⟨1, 10⟩])] (initEngine 100 0 0) 5 2).1
      (by norm_num)
  · exact (no_input_validation trivialStrategy [] (initEngine 100 0 0) 1 2).2.1 rfl
  · exact (no_input_validation trivialStrategy [] (initEngine 0 0 0) 1 2).2.2 0 0 0

end QuantL
